import Mathlib

/-!
Verification of the core of `metacorus-django-utils` (`mcutils/__init__.py`):
the base-N numeral codec (`NumConv`), the uniform range sampler
(`random_in_range`) and the unique-ID allocators (`get_unique_id`,
`get_unique_id_str`).

The source is Python 2, so strings are byte strings; we embed them as
`List ℕ` of byte values.  Machine integers do not overflow in Python, so
`ℕ` / `ℤ` are the faithful carriers.  Exceptions are embedded with
`Except PyErr`; the error constructors carry the data that the source
interpolates into the exception message (radix, offending string, ...).
-/

/-- Exceptions raised by the embedded code.  Each `valueError…` constructor
carries exactly the values interpolated into the corresponding Python
message string. -/
inductive PyErr where
  /-- `ValueError('radix must be >= 2 and <= %d' % (len(alphabet),))` -/
  | valueErrorRadixRange (alphabetLength : ℕ)
  /-- `ValueError("duplicate characters found in '%s'" % (alphabet,))` -/
  | valueErrorDuplicate (alphabet : List ℕ)
  /-- `ValueError('number must be positive')` in `int2str` -/
  | valueErrorNegative
  /-- `ValueError("invalid literal for radix2int() with radix %d: '%s'")`
      raised by the manual loop of `str2int` -/
  | valueErrorRadix2Int (radix : ℕ) (s : List ℕ)
  /-- `ValueError("invalid literal for int() with base %d: '%s'")` raised by
      the built-in `int(num, radix)` used by the fast path of `str2int` -/
  | valueErrorIntLiteral (radix : ℕ) (s : List ℕ)
  /-- `ZeroDivisionError` -/
  | zeroDivisionError
deriving DecidableEq

deriving instance DecidableEq for Except

/-- A Python 2 byte string as the list of its byte values. -/
def pyStr (s : String) : List ℕ := s.toList.map Char.toNat

/-- Python 2 `str.lower()` under the C locale: only ASCII `A`-`Z` (65-90)
are mapped, everything else is unchanged. -/
def pyLower (b : ℕ) : ℕ := if 65 ≤ b ∧ b ≤ 90 then b + 32 else b

/-- Python 2 `str.upper()` under the C locale: only ASCII `a`-`z` (97-122)
are mapped, everything else is unchanged. -/
def pyUpper (b : ℕ) : ℕ := if 97 ≤ b ∧ b ≤ 122 then b - 32 else b

/-- The bytes `int(s, base)` skips as whitespace: space, `\t`, `\n`, `\v`,
`\f`, `\r`. -/
def pyIsSpace (b : ℕ) : Bool := b = 32 ∨ b = 9 ∨ b = 10 ∨ b = 11 ∨ b = 12 ∨ b = 13

/-- The digit value the built-in `int(s, base)` assigns to a byte:
`0`-`9` (48-57), `a`-`z` (97-122) as 10-35, `A`-`Z` (65-90) as 10-35. -/
def pyDigitVal (b : ℕ) : Option ℕ :=
  if 48 ≤ b ∧ b ≤ 57 then some (b - 48)
  else if 97 ≤ b ∧ b ≤ 122 then some (b - 97 + 10)
  else if 65 ≤ b ∧ b ≤ 90 then some (b - 65 + 10)
  else none

/-- `BASE85`, the module-level alphabet constant (april fool's rfc 1924). -/
def BASE85 : List ℕ :=
  pyStr "0123456789ABCDEFGHIJKLMNOPQRSTUVWXYZabcdefghijklmnopqrstuvwxyz!#$%&()*+-;<=>?@^_`\x7b|\x7d~"

/-- `BASE16 = BASE85[:16]` -/
def BASE16 : List ℕ := BASE85.take 16

/-- `BASE32` (rfc4648) -/
def BASE32 : List ℕ := pyStr "ABCDEFGHIJKLMNOPQRSTUVWXYZ234567"

/-- `BASE32HEX = BASE85[:32]` -/
def BASE32HEX : List ℕ := BASE85.take 32

/-- `BASE64` (rfc4648) -/
def BASE64 : List ℕ := pyStr "ABCDEFGHIJKLMNOPQRSTUVWXYZabcdefghijklmnopqrstuvwxyz0123456789+/"

/-- `BASE64URL = BASE64[:62] + '-_'` -/
def BASE64URL : List ℕ := BASE64.take 62 ++ pyStr "-_"

/-- `BASE62 = BASE85[:62]` -/
def BASE62 : List ℕ := BASE85.take 62

/-- The lookup built by `dict(zip(alphabet, range(len(alphabet))))`:
maps a byte to the index of its occurrence in `alphabet`; on duplicate
keys the later insertion (larger index) wins, as for a Python dict.
`cachedMapAux l i c` searches `l`, whose head sits at overall index `i`. -/
def cachedMapAux : List ℕ → ℕ → ℕ → Option ℕ
  | [], _, _ => none
  | a :: rest, i, c =>
    match cachedMapAux rest (i + 1) c with
    | some j => some j
    | none => if a = c then some i else none

/-- `self.cached_map` of `NumConv.__init__`. -/
def cachedMap (alphabet : List ℕ) (c : ℕ) : Option ℕ := cachedMapAux alphabet 0 c

/-- A constructed `NumConv` object.  Every object that leaves
`NumConv.__init__` without an exception satisfies the bundled invariants,
so they are carried as fields. -/
structure NumConv where
  radix : ℕ
  alphabet : List ℕ
  two_le_radix : 2 ≤ radix
  radix_le_length : radix ≤ alphabet.length
  nodup : alphabet.Nodup

theorem nodup_of_dedup_length {l : List ℕ} (h : l.dedup.length = l.length) :
    l.Nodup := by
  have hsub : l.dedup.Sublist l := List.dedup_sublist l
  have heq : l.dedup = l := hsub.eq_of_length h
  rw [← heq]
  exact List.nodup_dedup l

/-- `NumConv.__init__(radix, alphabet)`.  The radix is embedded as `ℕ`, so
the `int(radix) != radix` TypeError branch (a non-integral float radix) is
unrepresentable and omitted.  The `len(self.cached_map) != len(self.alphabet)`
duplicate test is embedded as comparing the number of distinct bytes
(`alphabet.dedup.length`, the number of dict keys) with `len(alphabet)`. -/
def NumConv.mk? (radix : ℕ) (alphabet : List ℕ) : Except PyErr NumConv :=
  if h1 : 2 ≤ radix ∧ radix ≤ alphabet.length then
    if h2 : alphabet.dedup.length = alphabet.length then
      .ok ⟨radix, alphabet, h1.1, h1.2, nodup_of_dedup_length h2⟩
    else .error (.valueErrorDuplicate alphabet)
  else .error (.valueErrorRadixRange alphabet.length)

/-- The `while` loop of `int2str`:
`ret = alphabet[num % radix] + ret; if num < radix: break; num //= radix`.
The loop runs at most `num + 1` times (the quotient strictly decreases for
`radix ≥ 2`), so structural recursion on a fuel of `num + 1` is exact; the
`fuel = 0` case is unreachable whenever `num < fuel` and `2 ≤ radix`. -/
def i2s_aux (alphabet : List ℕ) (radix : ℕ) : ℕ → ℕ → List ℕ → List ℕ
  | 0, _, ret => ret
  | fuel + 1, num, ret =>
    let ret' := alphabet.getD (num % radix) 0 :: ret
    if num < radix then ret'
    else i2s_aux alphabet radix fuel (num / radix) ret'

/-- The manual divide-and-prepend digit expansion of `int2str`. -/
def int2str_digits (alphabet : List ℕ) (radix num : ℕ) : List ℕ :=
  i2s_aux alphabet radix (num + 1) num []

/-- The digit symbols used by the native formatters `'%o'`, `'%d'`, `'%x'`:
`0`-`9` then lowercase `a`-`f`. -/
def PY_FORMAT_DIGITS : List ℕ := pyStr "0123456789abcdef"

/-- `({8: '%o', 10: '%d', 16: '%x'}[radix] % num).upper()`: the native
formatter emits the canonical digits (lowercase for `%x`), minimal length
with `'0'` for zero — i.e. exactly the divide-and-prepend expansion over
the canonical lowercase digit symbols — and the result is uppercased. -/
def int2str_fast (radix num : ℕ) : List ℕ :=
  (int2str_digits PY_FORMAT_DIGITS radix num).map pyUpper

/-- The fast-path guard `alphabet[:radix].lower() == BASE85[:radix].lower()`. -/
def lowerMatch (radix : ℕ) (alphabet : List ℕ) : Prop :=
  (alphabet.take radix).map pyLower = (BASE85.take radix).map pyLower

instance (radix : ℕ) (alphabet : List ℕ) : Decidable (lowerMatch radix alphabet) := by
  unfold lowerMatch; infer_instance

/-- `NumConv.int2str`.  `num` is an `ℤ` so the `num < 0` ValueError branch
is representable; the `int(num) != num` TypeError branch (non-integral
float) is unrepresentable over `ℤ` and omitted. -/
def NumConv.int2str (nc : NumConv) (num : ℤ) : Except PyErr (List ℕ) :=
  if num < 0 then .error .valueErrorNegative
  else if nc.radix ∈ [8, 10, 16] ∧ lowerMatch nc.radix nc.alphabet then
    .ok (int2str_fast nc.radix num.toNat)
  else
    .ok (int2str_digits nc.alphabet nc.radix num.toNat)

/-- Whether a byte is a valid digit for `int(s, base)` at the given base. -/
def pyIntIsDigit (radix c : ℕ) : Bool :=
  match pyDigitVal c with
  | some d => d < radix
  | none => false

/-- `int(s, base)` preprocessing, part 1: strip leading whitespace and one
optional sign byte (`-` 45 or `+` 43). -/
def pyIntSign (s : List ℕ) : List ℕ :=
  let t1 := s.dropWhile pyIsSpace
  if t1.headD 0 = 45 ∨ t1.headD 0 = 43 then t1.tail else t1

/-- `int(s, base)` preprocessing, part 2: additionally strip the radix
prefix `0x`/`0X` (base 16), `0o`/`0O` (base 8) or `0b`/`0B` (base 2). -/
def pyIntBody (radix : ℕ) (s : List ℕ) : List ℕ :=
  match pyIntSign s with
  | c0 :: c1 :: rest =>
    if c0 = 48 ∧ ((radix = 16 ∧ (c1 = 120 ∨ c1 = 88)) ∨
                  (radix = 8 ∧ (c1 = 111 ∨ c1 = 79)) ∨
                  (radix = 2 ∧ (c1 = 98 ∨ c1 = 66)))
    then rest else c0 :: c1 :: rest
  | t2 => t2

/-- Whether `int(s, base)` saw a minus sign. -/
def pyIntNeg (s : List ℕ) : Bool := (s.dropWhile pyIsSpace).headD 0 = 45

/-- The built-in `int(s, radix)` of Python 2 (`PyLong_FromString`): skip
leading whitespace, an optional sign, for bases 16/8/2 an optional
`0x`/`0o`/`0b` prefix, then a non-empty run of digits valid for the base,
then only trailing whitespace.  Anything else is a ValueError citing the
base and the whole string. -/
def pyIntParse (radix : ℕ) (s : List ℕ) : Except PyErr ℤ :=
  let digits := (pyIntBody radix s).takeWhile (pyIntIsDigit radix)
  let rest := (pyIntBody radix s).dropWhile (pyIntIsDigit radix)
  if digits = [] ∨ ¬ rest.all pyIsSpace then .error (.valueErrorIntLiteral radix s)
  else
    let v : ℕ := digits.foldl (fun a c => a * radix + (pyDigitVal c).getD 0) 0
    .ok (if pyIntNeg s then -(v : ℤ) else (v : ℤ))

/-- The manual fold of `str2int`: left to right,
`ret = ret * radix + cached_map[char]`, raising on the first byte outside
`alphabet[:radix]` with a message citing the radix and the original
string `orig`. -/
def s2i_aux (nc : NumConv) (orig : List ℕ) : List ℕ → ℕ → Except PyErr ℤ
  | [], ret => .ok (ret : ℤ)
  | c :: rest, ret =>
    if c ∈ nc.alphabet.take nc.radix then
      s2i_aux nc orig rest (ret * nc.radix + (cachedMap nc.alphabet c).getD 0)
    else .error (.valueErrorRadix2Int nc.radix orig)

/-- The manual (non-delegating) path of `str2int` on its own. -/
def str2int_manual (nc : NumConv) (s : List ℕ) : Except PyErr ℤ :=
  s2i_aux nc s s 0

/-- `NumConv.str2int`. -/
def NumConv.str2int (nc : NumConv) (s : List ℕ) : Except PyErr ℤ :=
  if nc.radix ≤ 36 ∧ lowerMatch nc.radix nc.alphabet then pyIntParse nc.radix s
  else str2int_manual nc s

/-- The module-level helper `int2str(num, radix, alphabet)`:
`NumConv(radix, alphabet).int2str(num)`. -/
def int2str_top (num : ℤ) (radix : ℕ) (alphabet : List ℕ) : Except PyErr (List ℕ) :=
  NumConv.mk? radix alphabet >>= fun nc => nc.int2str num

/-- The module-level helper `str2int(num, radix, alphabet)`:
`NumConv(radix, alphabet).str2int(num)`. -/
def str2int_top (s : List ℕ) (radix : ℕ) (alphabet : List ℕ) : Except PyErr ℤ :=
  NumConv.mk? radix alphabet >>= fun nc => nc.str2int s

/-- Python `int.bit_length()` of `|x|` (the source's `numbits`): the number
of binary digits, 0 for 0.  Structural recursion on a fuel of `n`
iterations is exact since halving strictly decreases a positive argument;
the `fuel = 0, n ≥ 1` case is unreachable from `bitLen`. -/
def bitLenAux : ℕ → ℕ → ℕ
  | _, 0 => 0
  | 0, _ + 1 => 1
  | fuel + 1, n + 1 => bitLenAux fuel ((n + 1) / 2) + 1

/-- `numbits(x)` of `random_in_range`: `x.bit_length()`. -/
def numbits (x : ℤ) : ℕ := bitLenAux x.natAbs x.natAbs

/-- One draw of `random_in_range(max_value, min_value)`, given the entropy
word `base_random = getrandbits(bit_length)`.  `.ok none` is the
tail-recursive retry; `.ok (some v)` is `return v`.  Python 2 `%` and `/`
on ints are floor operations, hence `Int.fmod` / `Int.fdiv`; a zero
divisor raises `ZeroDivisionError` (the `bucket = 0` guard is unreachable,
see `rir_step` theorems). -/
def rir_step (max_value min_value base_random : ℤ) : Except PyErr (Option ℤ) :=
  let maxv := if max_value = 0 then 2 ^ 64 - 1 else max_value
  let bit_length := numbits maxv
  let rand_max : ℤ := 2 ^ bit_length - 1
  if base_random = rand_max then .ok none
  else
    let value_range := maxv - min_value
    if value_range = 0 then .error .zeroDivisionError
    else
      let remainder := Int.fmod rand_max value_range
      let bucket := Int.fdiv rand_max value_range
      if base_random < rand_max - remainder then
        if bucket = 0 then .error .zeroDivisionError
        else .ok (some (min_value + Int.fdiv base_random bucket))
      else .ok none

/-- `random_in_range` driven by an explicit finite list of entropy draws;
`.ok none` means the modelled entropy ran out while the code would keep
retrying. -/
def random_in_range_draws (max_value min_value : ℤ) : List ℤ → Except PyErr (Option ℤ)
  | [] => .ok none
  | b :: rest =>
    match rir_step max_value min_value b with
    | .error e => .error e
    | .ok (some v) => .ok (some v)
    | .ok none => random_in_range_draws max_value min_value rest

/-- A Python object passed as the `is_unique` argument: the `callable()`
test result, its truthiness (unused by the code — `callable` is the only
test performed), and the underlying predicate for when it is callable. -/
structure PyCallable (α : Type) where
  isCallable : Bool
  truthy : Bool
  call : α → Bool

/-- The `while not is_unique(id): id = get_random_id()` loop of
`get_unique_id`, driven by the list of successive `_random(7)` outputs
(the 7-byte entropy integers); `none` means the modelled entropy ran out. -/
def uid_loop (is_unique : PyCallable ℤ) : ℤ → List ℕ → Option ℤ
  | id, entropy =>
    if is_unique.call id then some id
    else
      match entropy with
      | [] => none
      | n :: rest => uid_loop is_unique (n : ℤ) rest

/-- `get_unique_id(is_unique)`.  `uuid4int` models `uuid.uuid4().int`, the
128-bit value drawn on the non-callable path; `entropy` the successive
7-byte `_random(7)` draws feeding `get_random_id()`. -/
def get_unique_id (is_unique : PyCallable ℤ) (uuid4int : ℕ) (entropy : List ℕ) :
    Option ℤ :=
  if is_unique.isCallable = false then some (uuid4int : ℤ)
  else
    match entropy with
    | [] => none
    | n :: rest => uid_loop is_unique (n : ℤ) rest

/-- `get_random_id_str(alphabet)`: default the alphabet to `BASE62` when
falsy (None or empty), then encode the 7-byte entropy integer `n` with
`int2str(n, len(alphabet), alphabet)`. -/
def get_random_id_str (n : ℕ) (alphabet : List ℕ) : Except PyErr (List ℕ) :=
  let alphabet := if alphabet = [] then BASE62 else alphabet
  int2str_top (n : ℤ) alphabet.length alphabet

/-- The `while not is_unique(id): id = get_random_id_str(alphabet)` loop of
`get_unique_id_str`: redraws are encoded with the (already defaulted)
supplied alphabet. -/
def uid_str_loop (is_unique : PyCallable (List ℕ)) (alphabet : List ℕ) :
    List ℕ → List ℕ → Except PyErr (Option (List ℕ))
  | id, entropy =>
    if is_unique.call id then .ok (some id)
    else
      match entropy with
      | [] => .ok none
      | n :: rest =>
        match get_random_id_str n alphabet with
        | .error e => .error e
        | .ok id' => uid_str_loop is_unique alphabet id' rest

/-- `get_unique_id_str(is_unique, alphabet)`.  Note that the source draws
the FIRST candidate with `get_random_id_str()` — no argument, hence the
default `BASE62` alphabet — and only the redraws inside the loop with
`get_random_id_str(alphabet)`. -/
def get_unique_id_str (is_unique : PyCallable (List ℕ)) (alphabet : List ℕ)
    (uuid4int : ℕ) (entropy : List ℕ) : Except PyErr (Option (List ℕ)) :=
  let alphabet := if alphabet = [] then BASE62 else alphabet
  if is_unique.isCallable = false then
    (int2str_top (uuid4int : ℤ) alphabet.length alphabet).map some
  else
    match entropy with
    | [] => .ok none
    | n :: rest =>
      match get_random_id_str n [] with
      | .error e => .error e
      | .ok id => uid_str_loop is_unique alphabet id rest

/-! ### Lemmas about the digit expansion loop -/

theorem i2s_aux_fuel (A : List ℕ) (r : ℕ) (hr : 2 ≤ r) :
    ∀ num f₁ f₂ ret, num < f₁ → num < f₂ →
      i2s_aux A r f₁ num ret = i2s_aux A r f₂ num ret := by
  intro num
  induction num using Nat.strong_induction_on with
  | _ num ih =>
    intro f₁ f₂ ret h1 h2
    match f₁, h1 with
    | g₁ + 1, h1 =>
      match f₂, h2 with
      | g₂ + 1, h2 =>
        simp only [i2s_aux]
        by_cases hlt : num < r
        · simp [hlt]
        · simp only [if_neg hlt]
          have hnum1 : 0 < num := by omega
          have hdiv : num / r < num := Nat.div_lt_self hnum1 (by omega)
          exact ih (num / r) hdiv g₁ g₂ _ (by omega) (by omega)

theorem i2s_aux_append (A : List ℕ) (r : ℕ) (hr : 2 ≤ r) :
    ∀ num fuel ret, num < fuel →
      i2s_aux A r fuel num ret = i2s_aux A r fuel num [] ++ ret := by
  intro num
  induction num using Nat.strong_induction_on with
  | _ num ih =>
    intro fuel ret h
    match fuel, h with
    | g + 1, h =>
      simp only [i2s_aux]
      by_cases hlt : num < r
      · simp [hlt]
      · simp only [if_neg hlt]
        have hnum1 : 0 < num := by omega
        have hdiv : num / r < num := Nat.div_lt_self hnum1 (by omega)
        have hg : num / r < g := by omega
        rw [ih (num / r) hdiv g _ hg, ih (num / r) hdiv g ([A.getD (num % r) 0]) hg]
        simp

/-- Unfolding characterisation of the digit expansion. -/
theorem int2str_digits_eq (A : List ℕ) (r : ℕ) (hr : 2 ≤ r) (num : ℕ) :
    int2str_digits A r num =
      if num < r then [A.getD num 0]
      else int2str_digits A r (num / r) ++ [A.getD (num % r) 0] := by
  by_cases hlt : num < r
  · rw [if_pos hlt]
    unfold int2str_digits
    simp [i2s_aux, hlt, Nat.mod_eq_of_lt hlt]
  · rw [if_neg hlt]
    have hnum1 : 0 < num := by omega
    have hdiv : num / r < num := Nat.div_lt_self hnum1 (by omega)
    unfold int2str_digits
    rw [show i2s_aux A r (num + 1) num [] =
        i2s_aux A r num (num / r) [A.getD (num % r) 0] by
      simp only [i2s_aux, if_neg hlt]]
    rw [i2s_aux_append A r hr (num / r) num _ hdiv,
      i2s_aux_fuel A r hr (num / r) num (num / r + 1) _ hdiv (Nat.lt_succ_self _)]

theorem int2str_digits_ne_nil (A : List ℕ) (r : ℕ) (hr : 2 ≤ r) (num : ℕ) :
    int2str_digits A r num ≠ [] := by
  rw [int2str_digits_eq A r hr num]
  by_cases hlt : num < r <;> simp [hlt]

/-- Every emitted byte is a digit symbol `A[d]` with `d < radix`. -/
theorem int2str_digits_mem (A : List ℕ) (r : ℕ) (hr : 2 ≤ r) :
    ∀ num c, c ∈ int2str_digits A r num → ∃ d, d < r ∧ c = A.getD d 0 := by
  intro num
  induction num using Nat.strong_induction_on with
  | _ num ih =>
    intro c hc
    rw [int2str_digits_eq A r hr num] at hc
    by_cases hlt : num < r
    · rw [if_pos hlt] at hc
      simp only [List.mem_singleton] at hc
      exact ⟨num, hlt, hc⟩
    · rw [if_neg hlt] at hc
      rcases List.mem_append.mp hc with h | h
      · have hnum1 : 0 < num := by omega
        exact ih (num / r) (Nat.div_lt_self hnum1 (by omega)) c h
      · simp only [List.mem_singleton] at h
        exact ⟨num % r, Nat.mod_lt _ (by omega), h⟩

/-- Folding `acc * radix + dv digit` over the expansion recovers the number,
for any digit-value function `dv` that inverts the alphabet lookup. -/
theorem fold_int2str_digits (A : List ℕ) (r : ℕ) (hr : 2 ≤ r) (dv : ℕ → ℕ)
    (hdv : ∀ d, d < r → dv (A.getD d 0) = d) :
    ∀ num, (int2str_digits A r num).foldl (fun a c => a * r + dv c) 0 = num := by
  intro num
  induction num using Nat.strong_induction_on with
  | _ num ih =>
    rw [int2str_digits_eq A r hr num]
    by_cases hlt : num < r
    · rw [if_pos hlt]
      simp only [List.foldl_cons, List.foldl_nil, Nat.zero_mul, Nat.zero_add]
      exact hdv num hlt
    · rw [if_neg hlt, List.foldl_append]
      have hnum1 : 0 < num := by omega
      rw [ih (num / r) (Nat.div_lt_self hnum1 (by omega))]
      simp only [List.foldl_cons, List.foldl_nil]
      rw [hdv (num % r) (Nat.mod_lt _ (by omega)), Nat.mul_comm]
      exact Nat.div_add_mod num r

/-! ### Helpers about `take`, `getD`, the cached map and byte case folding -/

theorem getD_mem_take {A : List ℕ} {r d : ℕ} (hd : d < r) (hlen : d < A.length) :
    A.getD d 0 ∈ A.take r := by
  have hlt : d < (A.take r).length := by
    rw [List.length_take]; omega
  have : (A.take r).getD d 0 = A.getD d 0 := by
    rw [List.getD_eq_getElem _ _ hlt, List.getD_eq_getElem _ _ hlen, List.getElem_take]
  rw [← this, List.getD_eq_getElem _ _ hlt]
  exact List.getElem_mem hlt

theorem mem_take_exists_getD {A : List ℕ} {r c : ℕ} (hc : c ∈ A.take r) :
    ∃ d, d < r ∧ d < A.length ∧ c = A.getD d 0 := by
  obtain ⟨i, hi⟩ := List.get_of_mem hc
  have hlen : (i : ℕ) < (A.take r).length := i.isLt
  have hlen2 : (A.take r).length = min r A.length := List.length_take r A
  have hr1 : (i : ℕ) < r := by omega
  have hr2 : (i : ℕ) < A.length := by omega
  refine ⟨i, hr1, hr2, ?_⟩
  rw [← hi, List.getD_eq_getElem _ _ hr2, List.get_eq_getElem]
  exact List.getElem_take A

theorem cachedMapAux_eq_none {l : List ℕ} {c : ℕ} (h : c ∉ l) :
    ∀ i, cachedMapAux l i c = none := by
  induction l with
  | nil => intro i; rfl
  | cons a rest ih =>
    intro i
    have hne : a ≠ c := fun hac => h (hac ▸ List.mem_cons_self a rest)
    have hrest : c ∉ rest := fun hm => h (List.mem_cons_of_mem a hm)
    simp [cachedMapAux, ih hrest, hne]

theorem cachedMapAux_getD {A : List ℕ} (hnd : A.Nodup) :
    ∀ d i, d < A.length → cachedMapAux A i (A.getD d 0) = some (i + d) := by
  induction A with
  | nil => intro d i hd; simp at hd
  | cons a rest ih =>
    intro d i hd
    have hnd' : rest.Nodup := (List.nodup_cons.mp hnd).2
    have hna : a ∉ rest := (List.nodup_cons.mp hnd).1
    match d with
    | 0 =>
      have hget : (a :: rest).getD 0 0 = a := rfl
      rw [hget]
      have hnone : cachedMapAux rest (i + 1) a = none := cachedMapAux_eq_none hna _
      simp [cachedMapAux, hnone]
    | d + 1 =>
      have hget : (a :: rest).getD (d + 1) 0 = rest.getD d 0 := rfl
      rw [hget]
      have hdl : d < rest.length := by simpa using Nat.lt_of_succ_lt_succ hd
      have hsome := ih hnd' d (i + 1) hdl
      simp only [cachedMapAux, hsome]
      congr 1
      omega

/-- With a duplicate-free alphabet the cached dict maps each symbol back to
its index. -/
theorem cachedMap_getD {A : List ℕ} (hnd : A.Nodup) {d : ℕ} (hd : d < A.length) :
    cachedMap A (A.getD d 0) = some d := by
  have := cachedMapAux_getD hnd d 0 hd
  simpa [cachedMap] using this

/-- Two bytes with the same `lower()` image have the same `int()` digit
value (case-insensitivity of digit parsing). -/
theorem pyDigitVal_of_pyLower_eq {b₁ b₂ : ℕ} (h : pyLower b₁ = pyLower b₂) :
    pyDigitVal b₁ = pyDigitVal b₂ := by
  by_cases h1 : 65 ≤ b₁ ∧ b₁ ≤ 90 <;> by_cases h2 : 65 ≤ b₂ ∧ b₂ ≤ 90
  · have hb : b₁ = b₂ := by unfold pyLower at h; rw [if_pos h1, if_pos h2] at h; omega
    rw [hb]
  · have hb : b₁ + 32 = b₂ := by unfold pyLower at h; rw [if_pos h1, if_neg h2] at h; exact h
    have e1 : pyDigitVal b₁ = some (b₁ - 65 + 10) := by
      unfold pyDigitVal; rw [if_neg (by omega), if_neg (by omega), if_pos (by omega)]
    have e2 : pyDigitVal b₂ = some (b₂ - 97 + 10) := by
      unfold pyDigitVal; rw [if_neg (by omega), if_pos (by omega)]
    rw [e1, e2]
    congr 1
    omega
  · have hb : b₁ = b₂ + 32 := by unfold pyLower at h; rw [if_neg h1, if_pos h2] at h; omega
    have e1 : pyDigitVal b₁ = some (b₁ - 97 + 10) := by
      unfold pyDigitVal; rw [if_neg (by omega), if_pos (by omega)]
    have e2 : pyDigitVal b₂ = some (b₂ - 65 + 10) := by
      unfold pyDigitVal; rw [if_neg (by omega), if_neg (by omega), if_pos (by omega)]
    rw [e1, e2]
    congr 1
    omega
  · have hb : b₁ = b₂ := by unfold pyLower at h; rw [if_neg h1, if_neg h2] at h; exact h
    rw [hb]

/-- The canonical `BASE85` prefix: symbol `d` of the first 36 has `int()`
digit value `d` (checked by computation). -/
theorem pyDigitVal_BASE85 : ∀ d, d < 36 → pyDigitVal (BASE85.getD d 0) = some d := by
  decide

/-- Uppercasing the native formatter digit symbols gives the `BASE85`
prefix symbols (checked by computation for the 16 symbols). -/
theorem pyUpper_format_digits :
    ∀ d, d < 16 → pyUpper (PY_FORMAT_DIGITS.getD d 0) = BASE85.getD d 0 := by
  decide

/-- Digit symbols are never whitespace, sign or prefix markers. -/
theorem pyDigitVal_not_space {c d : ℕ} (h : pyDigitVal c = some d) :
    pyIsSpace c = false := by
  unfold pyDigitVal at h
  unfold pyIsSpace
  split_ifs at h <;> simp <;> omega

/-! ### The fast-path guard and clean inputs of the built-in parser -/

theorem lowerMatch_getD {r : ℕ} {A : List ℕ} (h : lowerMatch r A) (hlen : r ≤ A.length)
    (hr85 : r ≤ 85) {d : ℕ} (hd : d < r) :
    pyLower (A.getD d 0) = pyLower (BASE85.getD d 0) := by
  have hlenB : BASE85.length = 85 := by decide
  have hdA : d < A.length := by omega
  have hdB : d < BASE85.length := by omega
  have hlA : d < ((A.take r).map pyLower).length := by
    rw [List.length_map, List.length_take]; omega
  have hlB : d < ((BASE85.take r).map pyLower).length := by
    rw [List.length_map, List.length_take]; omega
  have e1 : ((A.take r).map pyLower).getD d 0 = pyLower (A.getD d 0) := by
    rw [List.getD_eq_getElem _ _ hlA, List.getElem_map, List.getD_eq_getElem _ _ hdA]
    congr 1
    exact List.getElem_take A
  have e2 : ((BASE85.take r).map pyLower).getD d 0 = pyLower (BASE85.getD d 0) := by
    rw [List.getD_eq_getElem _ _ hlB, List.getElem_map, List.getD_eq_getElem _ _ hdB]
    congr 1
    exact List.getElem_take BASE85
  rw [← e1, ← e2]
  exact congrArg (fun l => l.getD d 0) h

/-- Under the case-insensitive fast-path guard (and `radix ≤ 36`) every
alphabet digit symbol parses back to its own index. -/
theorem pyDigitVal_of_lowerMatch {r : ℕ} {A : List ℕ} (h : lowerMatch r A)
    (hlen : r ≤ A.length) (hr36 : r ≤ 36) {d : ℕ} (hd : d < r) :
    pyDigitVal (A.getD d 0) = some d := by
  rw [pyDigitVal_of_pyLower_eq (lowerMatch_getD h hlen (by omega) hd)]
  exact pyDigitVal_BASE85 d (by omega)

theorem pyIntIsDigit_facts {r c : ℕ} (h : pyIntIsDigit r c = true) :
    pyIsSpace c = false ∧ c ≠ 45 ∧ c ≠ 43 := by
  unfold pyIntIsDigit at h
  rcases hv : pyDigitVal c with - | d
  · rw [hv] at h; exact absurd h (by simp)
  · refine ⟨pyDigitVal_not_space hv, ?_, ?_⟩ <;>
      (intro hc; rw [hc] at hv; simp [pyDigitVal] at hv)

/-- On a non-empty all-digit string the built-in parser strips nothing and
returns the plain left-to-right fold. -/
theorem pyIntParse_clean {r : ℕ} {s : List ℕ} (hne : s ≠ [])
    (hall : ∀ c ∈ s, pyIntIsDigit r c = true) :
    pyIntParse r s =
      .ok ((s.foldl (fun a c => a * r + (pyDigitVal c).getD 0) 0 : ℕ) : ℤ) := by
  obtain ⟨c₀, s', rfl⟩ : ∃ c₀ s', s = c₀ :: s' := by
    cases s with
    | nil => exact absurd rfl hne
    | cons a l => exact ⟨a, l, rfl⟩
  have h₀ := hall c₀ (List.mem_cons_self _ _)
  obtain ⟨hsp₀, h45, h43⟩ := pyIntIsDigit_facts h₀
  have hdrop : (c₀ :: s').dropWhile pyIsSpace = c₀ :: s' := by
    rw [List.dropWhile_cons, if_neg (by simp [hsp₀])]
  have hsign : pyIntSign (c₀ :: s') = c₀ :: s' := by
    unfold pyIntSign
    simp only [hdrop, List.headD_cons]
    rw [if_neg]
    rintro (hc | hc) <;> [exact h45 hc; exact h43 hc]
  have hbody : pyIntBody r (c₀ :: s') = c₀ :: s' := by
    unfold pyIntBody
    rw [hsign]
    cases s' with
    | nil => rfl
    | cons c₁ s'' =>
      have h₁ := hall c₁ (by simp)
      have hcond : ¬(c₀ = 48 ∧ ((r = 16 ∧ (c₁ = 120 ∨ c₁ = 88)) ∨
          (r = 8 ∧ (c₁ = 111 ∨ c₁ = 79)) ∨ (r = 2 ∧ (c₁ = 98 ∨ c₁ = 66)))) := by
        rintro ⟨-, ⟨rfl, rfl | rfl⟩ | ⟨rfl, rfl | rfl⟩ | ⟨rfl, rfl | rfl⟩⟩ <;>
          revert h₁ <;> decide
      simp only [if_neg hcond]
  have htake : (c₀ :: s').takeWhile (pyIntIsDigit r) = c₀ :: s' :=
    List.takeWhile_eq_self_iff.mpr hall
  have hdropd : (c₀ :: s').dropWhile (pyIntIsDigit r) = [] :=
    List.dropWhile_eq_nil_iff.mpr hall
  have hneg : pyIntNeg (c₀ :: s') = false := by
    unfold pyIntNeg
    simp only [hdrop, List.headD_cons]
    simp [h45]
  unfold pyIntParse
  simp only [hbody, htake, hdropd]
  rw [if_neg (by simp [List.all_nil]), hneg]
  simp

/-! ### Lemmas about the manual fold of `str2int` -/

theorem s2i_aux_ok (nc : NumConv) (orig : List ℕ) :
    ∀ (s : List ℕ) (acc : ℕ), (∀ c ∈ s, c ∈ nc.alphabet.take nc.radix) →
      s2i_aux nc orig s acc =
        .ok ((s.foldl (fun a c => a * nc.radix + (cachedMap nc.alphabet c).getD 0) acc : ℕ) : ℤ) := by
  intro s
  induction s with
  | nil => intro acc h; rfl
  | cons c rest ih =>
    intro acc h
    have hc : c ∈ nc.alphabet.take nc.radix := h c (List.mem_cons_self _ _)
    simp only [s2i_aux, if_pos hc, List.foldl_cons]
    exact ih _ (fun x hx => h x (List.mem_cons_of_mem _ hx))

theorem s2i_aux_error (nc : NumConv) (orig : List ℕ) :
    ∀ (s : List ℕ) (acc : ℕ), (∃ c ∈ s, c ∉ nc.alphabet.take nc.radix) →
      s2i_aux nc orig s acc = .error (.valueErrorRadix2Int nc.radix orig) := by
  intro s
  induction s with
  | nil =>
    intro acc h
    obtain ⟨c, hc, -⟩ := h
    exact absurd hc (List.not_mem_nil c)
  | cons c rest ih =>
    intro acc h
    by_cases hc : c ∈ nc.alphabet.take nc.radix
    · simp only [s2i_aux, if_pos hc]
      obtain ⟨x, hx, hxn⟩ := h
      rcases List.mem_cons.mp hx with rfl | hx'
      · exact absurd hc hxn
      · exact ih _ ⟨x, hx', hxn⟩
    · simp only [s2i_aux, if_neg hc]

/-- The manual path errors exactly on strings containing a byte outside
`alphabet[:radix]`, and the error always cites the radix and the string. -/
theorem str2int_manual_error_iff (nc : NumConv) (s : List ℕ) :
    ((∃ e, str2int_manual nc s = .error e) ↔ ∃ c ∈ s, c ∉ nc.alphabet.take nc.radix) ∧
      (∀ e, str2int_manual nc s = .error e → e = .valueErrorRadix2Int nc.radix s) := by
  by_cases h : ∀ c ∈ s, c ∈ nc.alphabet.take nc.radix
  · have hok := s2i_aux_ok nc s s 0 h
    rw [str2int_manual]
    constructor
    · constructor
      · rintro ⟨e, he⟩
        rw [hok] at he
        exact absurd he (by simp)
      · rintro ⟨c, hc, hcn⟩
        exact absurd (h c hc) hcn
    · intro e he
      rw [hok] at he
      exact absurd he (by simp)
  · push_neg at h
    obtain ⟨c, hc, hcn⟩ := h
    have herr := s2i_aux_error nc s s 0 ⟨c, hc, hcn⟩
    rw [str2int_manual]
    constructor
    · exact ⟨fun _ => ⟨c, hc, hcn⟩, fun _ => ⟨_, herr⟩⟩
    · intro e he
      rw [herr] at he
      exact (Except.error.injEq _ _).mp he.symm

/-! ### The native formatter agrees with the expansion over `BASE85` -/

/-- Uppercasing the `'%o'`/`'%d'`/`'%x'` output gives exactly the manual
expansion over the canonical `BASE85` alphabet (for any radix up to 16). -/
theorem int2str_fast_eq_digits_BASE85 {r : ℕ} (hr2 : 2 ≤ r) (hr16 : r ≤ 16) :
    ∀ num, int2str_fast r num = int2str_digits BASE85 r num := by
  intro num
  induction num using Nat.strong_induction_on with
  | _ num ih =>
    unfold int2str_fast
    rw [int2str_digits_eq PY_FORMAT_DIGITS r hr2 num, int2str_digits_eq BASE85 r hr2 num]
    by_cases hlt : num < r
    · simp only [if_pos hlt, List.map_cons, List.map_nil]
      rw [pyUpper_format_digits num (by omega)]
    · simp only [if_neg hlt, List.map_append, List.map_cons, List.map_nil]
      have hnum1 : 0 < num := by omega
      have hmod : num % r < r := Nat.mod_lt _ (by omega)
      have := ih (num / r) (Nat.div_lt_self hnum1 (by omega))
      unfold int2str_fast at this
      rw [this, pyUpper_format_digits (num % r) (by omega)]

/-! ### Round-trip helpers -/

theorem getD_take_eq {A : List ℕ} {r d : ℕ} (hd : d < r) :
    (A.take r).getD d 0 = A.getD d 0 := by
  by_cases hlen : d < A.length
  · have hlt : d < (A.take r).length := by
      rw [List.length_take]; omega
    rw [List.getD_eq_getElem _ _ hlt, List.getD_eq_getElem _ _ hlen]
    exact List.getElem_take A
  · rw [List.getD_eq_default _ _ (show (A.take r).length ≤ d by rw [List.length_take]; omega),
      List.getD_eq_default _ _ (show A.length ≤ d by omega)]

theorem int2str_digits_congr {r : ℕ} (hr2 : 2 ≤ r) {A B : List ℕ}
    (h : ∀ d, d < r → A.getD d 0 = B.getD d 0) :
    ∀ num, int2str_digits A r num = int2str_digits B r num := by
  intro num
  induction num using Nat.strong_induction_on with
  | _ num ih =>
    rw [int2str_digits_eq A r hr2 num, int2str_digits_eq B r hr2 num]
    by_cases hlt : num < r
    · simp only [if_pos hlt, h num hlt]
    · have hnum1 : 0 < num := by omega
      simp only [if_neg hlt, ih (num / r) (Nat.div_lt_self hnum1 (by omega)),
        h (num % r) (Nat.mod_lt _ (by omega))]

theorem foldl_dv_congr {r : ℕ} {dv₁ dv₂ : ℕ → ℕ} :
    ∀ (s : List ℕ), (∀ c ∈ s, dv₁ c = dv₂ c) → ∀ acc : ℕ,
      s.foldl (fun a c => a * r + dv₁ c) acc = s.foldl (fun a c => a * r + dv₂ c) acc := by
  intro s
  induction s with
  | nil => intro h acc; rfl
  | cons c rest ih =>
    intro h acc
    simp only [List.foldl_cons, h c (List.mem_cons_self _ _)]
    exact ih (fun x hx => h x (List.mem_cons_of_mem _ hx)) _

/-- Under the (case-insensitive) fast-path guard, the built-in parser
decodes the manual expansion back to the number. -/
theorem parse_digits_of_lowerMatch {r : ℕ} {A : List ℕ} (hr2 : 2 ≤ r)
    (hlen : r ≤ A.length) (hlm : lowerMatch r A) (h36 : r ≤ 36) (n : ℕ) :
    pyIntParse r (int2str_digits A r n) = .ok (n : ℤ) := by
  have hall : ∀ c ∈ int2str_digits A r n, pyIntIsDigit r c = true := by
    intro c hc
    obtain ⟨d, hd, rfl⟩ := int2str_digits_mem A r hr2 n c hc
    unfold pyIntIsDigit
    rw [pyDigitVal_of_lowerMatch hlm hlen h36 hd]
    simpa using hd
  rw [pyIntParse_clean (int2str_digits_ne_nil A r hr2 n) hall]
  congr 1
  have hdv : ∀ d, d < r → (fun c => (pyDigitVal c).getD 0) (A.getD d 0) = d := by
    intro d hd
    simp only [pyDigitVal_of_lowerMatch hlm hlen h36 hd, Option.getD_some]
  exact congrArg _ (fold_int2str_digits A r hr2 _ hdv n)

/-- The manual fold decodes the manual expansion back to the number, for
every constructed codec. -/
theorem manual_roundtrip (nc : NumConv) (n : ℕ) :
    str2int_manual nc (int2str_digits nc.alphabet nc.radix n) = .ok (n : ℤ) := by
  have hr2 := nc.two_le_radix
  have hmem : ∀ c ∈ int2str_digits nc.alphabet nc.radix n,
      c ∈ nc.alphabet.take nc.radix := by
    intro c hc
    obtain ⟨d, hd, rfl⟩ := int2str_digits_mem nc.alphabet nc.radix hr2 n c hc
    exact getD_mem_take hd (by have := nc.radix_le_length; omega)
  rw [str2int_manual, s2i_aux_ok nc _ _ 0 hmem]
  congr 1
  have hdv : ∀ d, d < nc.radix →
      (fun c => (cachedMap nc.alphabet c).getD 0) (nc.alphabet.getD d 0) = d := by
    intro d hd
    simp only [cachedMap_getD nc.nodup (show d < nc.alphabet.length by
      have := nc.radix_le_length; omega), Option.getD_some]
  exact congrArg _ (fold_int2str_digits nc.alphabet nc.radix hr2 _ hdv n)

/-! ### Analysis of the rejection sampler -/

theorem rir_step_eq (max min b : ℤ) (hmax : max ≠ 0) :
    rir_step max min b =
      if b = 2 ^ numbits max - 1 then .ok none
      else if max - min = 0 then .error .zeroDivisionError
      else if b < 2 ^ numbits max - 1 - Int.fmod (2 ^ numbits max - 1) (max - min) then
        if Int.fdiv (2 ^ numbits max - 1) (max - min) = 0 then .error .zeroDivisionError
        else .ok (some (min + Int.fdiv b (Int.fdiv (2 ^ numbits max - 1) (max - min))))
      else .ok none := by
  simp only [rir_step, if_neg hmax]

/-- Characterisation of an accepting draw: `rir_step` returns `v` exactly
when the draw lies in the `v`-th bucket of `bucket` consecutive words. -/
theorem rir_step_ok_iff (max min b v : ℤ) (hmax : max ≠ 0) (hlt : min < max)
    (hb0 : 0 ≤ b) :
    rir_step max min b = .ok (some v) ↔
      (v - min) * Int.fdiv (2 ^ numbits max - 1) (max - min) ≤ b ∧
      b < (v - min + 1) * Int.fdiv (2 ^ numbits max - 1) (max - min) ∧
      min ≤ v ∧ v < max := by
  rw [rir_step_eq max min b hmax]
  set M : ℤ := 2 ^ numbits max - 1 with hMdef
  set vr : ℤ := max - min with hvrdef
  set q : ℤ := Int.fdiv M vr with hqdef
  set rem : ℤ := Int.fmod M vr with hremdef
  have hvr0 : 0 < vr := by omega
  have hM0 : 0 ≤ M := by
    have : (0:ℤ) < 2 ^ numbits max := pow_pos (by norm_num) _
    omega
  have hqe : q = M / vr := Int.fdiv_eq_ediv M (le_of_lt hvr0)
  have hreme : rem = M % vr := Int.fmod_eq_emod M (le_of_lt hvr0)
  have hgeq : vr * q + rem = M := by rw [hqe, hreme]; exact Int.ediv_add_emod M vr
  have hrem0 : 0 ≤ rem := by rw [hreme]; exact Int.emod_nonneg M (by omega)
  have hremlt : rem < vr := by rw [hreme]; exact Int.emod_lt_of_pos M hvr0
  have hq0 : 0 ≤ q := by rw [hqe]; exact Int.ediv_nonneg hM0 (by omega)
  have hMrem : M - rem = vr * q := by omega
  rw [if_neg (show ¬ vr = 0 by omega)]
  by_cases hbM : b = M
  · rw [if_pos hbM]
    constructor
    · intro h; exact absurd h (by simp)
    · rintro ⟨h1, h2, h3, h4⟩
      exfalso
      have hvm1 : v - min + 1 ≤ vr := by omega
      have hmono : (v - min + 1) * q ≤ vr * q :=
        mul_le_mul_of_nonneg_right hvm1 hq0
      omega
  · rw [if_neg hbM]
    by_cases hacc : b < M - rem
    · rw [if_pos hacc]
      have hqne : ¬ q = 0 := by
        intro h0
        rw [h0, mul_zero] at hMrem
        omega
      rw [if_neg hqne]
      have hqpos : 0 < q := by omega
      have hfd : Int.fdiv b q = b / q := Int.fdiv_eq_ediv b (by omega)
      rw [hfd]
      have hblt : b < vr * q := by omega
      have hdivlt : b / q < vr := (Int.ediv_lt_iff_lt_mul hqpos).mpr hblt
      have hdiv0 : 0 ≤ b / q := Int.ediv_nonneg hb0 (by omega)
      constructor
      · intro h
        have hv : min + b / q = v := by
          have := h
          simp only [Except.ok.injEq, Option.some.injEq] at this
          exact this
        refine ⟨?_, ?_, by omega, by omega⟩
        · have h1 : b / q ≤ b / q := le_refl _
          have := (Int.le_ediv_iff_mul_le hqpos).mp h1
          have hvm : v - min = b / q := by omega
          rw [hvm]
          exact this
        · have h2 : b / q < b / q + 1 := by omega
          have := (Int.ediv_lt_iff_lt_mul hqpos).mp h2
          have hvm : v - min + 1 = b / q + 1 := by omega
          rw [hvm]
          exact this
      · rintro ⟨h1, h2, h3, h4⟩
        have hle : v - min ≤ b / q := (Int.le_ediv_iff_mul_le hqpos).mpr h1
        have hlt2 : b / q < v - min + 1 := (Int.ediv_lt_iff_lt_mul hqpos).mpr h2
        have : b / q = v - min := by omega
        simp only [Except.ok.injEq, Option.some.injEq]
        omega
    · rw [if_neg hacc]
      constructor
      · intro h; exact absurd h (by simp)
      · rintro ⟨h1, h2, h3, h4⟩
        exfalso
        have hvm1 : v - min + 1 ≤ vr := by omega
        have hmono : (v - min + 1) * q ≤ vr * q :=
          mul_le_mul_of_nonneg_right hvm1 hq0
        omega

/-- Each value of the half-open range `[min_value, max_value)` is produced
by exactly `bucket` of the `2 ^ bit_length` possible entropy words. -/
theorem rir_step_count (max min v : ℤ) (hmax : max ≠ 0) (hlt : min < max)
    (hv1 : min ≤ v) (hv2 : v < max) :
    ((Finset.range (2 ^ numbits max)).filter
        (fun b : ℕ => rir_step max min (b : ℤ) = .ok (some v))).card
      = (Int.fdiv (2 ^ numbits max - 1) (max - min)).toNat := by
  set M : ℤ := 2 ^ numbits max - 1 with hMdef
  set vr : ℤ := max - min with hvrdef
  set q : ℤ := Int.fdiv M vr with hqdef
  have hvr0 : 0 < vr := by omega
  have hM0 : 0 ≤ M := by
    have : (0:ℤ) < 2 ^ numbits max := pow_pos (by norm_num) _
    omega
  have hqe : q = M / vr := Int.fdiv_eq_ediv M (le_of_lt hvr0)
  have hgeq : vr * q + M % vr = M := by rw [hqe]; exact Int.ediv_add_emod M vr
  have hrem0 : 0 ≤ M % vr := Int.emod_nonneg M (by omega)
  have hq0 : 0 ≤ q := by rw [hqe]; exact Int.ediv_nonneg hM0 (by omega)
  set Q : ℕ := q.toNat with hQdef
  set D : ℕ := (v - min).toNat with hDdef
  have hQ : (Q : ℤ) = q := Int.toNat_of_nonneg hq0
  have hD : (D : ℤ) = v - min := Int.toNat_of_nonneg (by omega)
  have e1 : ((Q * D : ℕ) : ℤ) = (v - min) * q := by push_cast; rw [hQ, hD]; ring
  have e2 : ((Q * D + Q : ℕ) : ℤ) = (v - min + 1) * q := by push_cast; rw [hQ, hD]; ring
  have hup : (v - min + 1) * q ≤ vr * q :=
    mul_le_mul_of_nonneg_right (by omega) hq0
  have h2k : ((2 ^ numbits max : ℕ) : ℤ) = M + 1 := by
    rw [hMdef]; push_cast; ring
  have hfilter : (Finset.range (2 ^ numbits max)).filter
      (fun b : ℕ => rir_step max min (b : ℤ) = .ok (some v)) =
      Finset.Ico (Q * D) (Q * D + Q) := by
    ext b
    simp only [Finset.mem_filter, Finset.mem_range, Finset.mem_Ico]
    constructor
    · rintro ⟨hbr, hstep⟩
      have hiff := (rir_step_ok_iff max min (b : ℤ) v hmax hlt
        (by positivity)).mp hstep
      obtain ⟨h1, h2, -, -⟩ := hiff
      rw [← hMdef, ← hvrdef, ← hqdef] at h1 h2
      omega
    · rintro ⟨h1, h2⟩
      have hb1 : (v - min) * q ≤ (b : ℤ) := by omega
      have hb2 : (b : ℤ) < (v - min + 1) * q := by omega
      have hbM : (b : ℤ) ≤ M := by omega
      refine ⟨by omega, ?_⟩
      exact (rir_step_ok_iff max min (b : ℤ) v hmax hlt (by positivity)).mpr
        ⟨hb1, hb2, hv1, hv2⟩
  rw [hfilter, Nat.card_Ico]
  omega

/-- With an empty range (`max_value = min_value`, truthy), every draw
either retries (draw = `rand_max`) or raises `ZeroDivisionError` at
`rand_max % value_range`. -/
theorem rir_step_degenerate (m b : ℤ) (hm : m ≠ 0) :
    rir_step m m b =
      if b = 2 ^ numbits m - 1 then .ok none else .error .zeroDivisionError := by
  rw [rir_step_eq m m b hm]
  by_cases hb : b = 2 ^ numbits m - 1
  · rw [if_pos hb, if_pos hb]
  · rw [if_neg hb, if_neg hb, if_pos (sub_self m)]

theorem random_in_range_draws_degenerate (m : ℤ) (hm : m ≠ 0) :
    ∀ (draws : List ℤ) (v : ℤ), random_in_range_draws m m draws ≠ .ok (some v) := by
  intro draws
  induction draws with
  | nil =>
    intro v h
    exact absurd h (by simp [random_in_range_draws])
  | cons b rest ih =>
    intro v h
    rw [random_in_range_draws, rir_step_degenerate m b hm] at h
    by_cases hb : b = 2 ^ numbits m - 1
    · rw [if_pos hb] at h
      exact ih v h
    · rw [if_neg hb] at h
      exact absurd h (by simp)

/-! ### Lemmas about the allocator loops -/

theorem uid_loop_some {iu : PyCallable ℤ} :
    ∀ (entropy : List ℕ) (id r : ℤ),
      uid_loop iu id entropy = some r → iu.call r = true := by
  intro entropy
  induction entropy with
  | nil =>
    intro id r h
    rw [uid_loop] at h
    by_cases hc : iu.call id
    · rw [if_pos hc] at h
      obtain rfl : id = r := by simpa using h
      exact hc
    · rw [if_neg hc] at h
      exact absurd h (by simp)
  | cons n rest ih =>
    intro id r h
    rw [uid_loop] at h
    by_cases hc : iu.call id
    · rw [if_pos hc] at h
      obtain rfl : id = r := by simpa using h
      exact hc
    · rw [if_neg hc] at h
      exact ih _ _ h

theorem uid_str_loop_some {iu : PyCallable (List ℕ)} {alphabet : List ℕ} :
    ∀ (entropy : List ℕ) (id s : List ℕ),
      uid_str_loop iu alphabet id entropy = .ok (some s) → iu.call s = true := by
  intro entropy
  induction entropy with
  | nil =>
    intro id s h
    rw [uid_str_loop] at h
    by_cases hc : iu.call id
    · rw [if_pos hc] at h
      obtain rfl : id = s := by simpa using h
      exact hc
    · rw [if_neg hc] at h
      exact absurd h (by simp)
  | cons n rest ih =>
    intro id s h
    rw [uid_str_loop] at h
    by_cases hc : iu.call id
    · rw [if_pos hc] at h
      obtain rfl : id = s := by simpa using h
      exact hc
    · rw [if_neg hc] at h
      cases hgr : get_random_id_str n alphabet with
      | error e => rw [hgr] at h; exact absurd h (by simp)
      | ok id' => rw [hgr] at h; exact ih _ _ h

/-! ### Concrete codecs used as counterexamples / witnesses -/

/-- `NumConv(10, BASE85)`: the default codec. -/
def nc_default : NumConv := ⟨10, BASE85, by decide, by decide, by decide⟩

/-- `NumConv(16, '0123456789abcdef')`: a valid codec whose alphabet matches
the canonical prefix case-insensitively but not exactly. -/
def nc_lower_hex : NumConv := ⟨16, pyStr "0123456789abcdef", by decide, by decide, by decide⟩

/-- `NumConv(16, BASE85)`: canonical hexadecimal. -/
def nc_canon_hex : NumConv := ⟨16, BASE85, by decide, by decide, by decide⟩

/-- `NumConv(4, 'rofl')`: the custom-alphabet codec of the doctests; its
alphabet does not match the canonical prefix, so it always takes the
manual paths. -/
def nc_rofl : NumConv := ⟨4, pyStr "rofl", by decide, by decide, by decide⟩

/-! ### Claims -/

/-- C2: for every codec constructed from a valid `(radix, alphabet)` pair
(every `NumConv` value) and every non-negative integer `n`, `str2int`
applied to the result of `int2str(n)` returns `n`. -/
theorem int2str_str2int_roundtrip (nc : NumConv) (n : ℕ) :
    nc.int2str (n : ℤ) >>= nc.str2int = .ok (n : ℤ) := by
  have hr2 := nc.two_le_radix
  have hneg : ¬ ((n : ℤ) < 0) := not_lt.mpr (Int.natCast_nonneg n)
  rw [NumConv.int2str, if_neg hneg]
  by_cases hfast : nc.radix ∈ [8, 10, 16] ∧ lowerMatch nc.radix nc.alphabet
  · rw [if_pos hfast]
    have h16 : nc.radix ≤ 16 := by
      have := hfast.1
      simp only [List.mem_cons, List.not_mem_nil, or_false] at this
      omega
    show nc.str2int (int2str_fast nc.radix ((n : ℤ)).toNat) = .ok (n : ℤ)
    rw [Int.toNat_natCast, int2str_fast_eq_digits_BASE85 hr2 h16 n,
      NumConv.str2int, if_pos ⟨by omega, hfast.2⟩]
    exact parse_digits_of_lowerMatch hr2
      (show nc.radix ≤ BASE85.length by
        have : BASE85.length = 85 := by decide
        omega)
      (show lowerMatch nc.radix BASE85 from rfl) (by omega) n
  · rw [if_neg hfast]
    show nc.str2int (int2str_digits nc.alphabet nc.radix ((n : ℤ)).toNat) = .ok (n : ℤ)
    rw [Int.toNat_natCast]
    by_cases hfast2 : nc.radix ≤ 36 ∧ lowerMatch nc.radix nc.alphabet
    · rw [NumConv.str2int, if_pos hfast2]
      exact parse_digits_of_lowerMatch hr2 nc.radix_le_length hfast2.2 hfast2.1 n
    · rw [NumConv.str2int, if_neg hfast2]
      exact manual_roundtrip nc n

/-- C4 (counterexample): the native fast paths do NOT always agree with the
manual loops.  With the valid codec `NumConv(16, '0123456789abcdef')`
(case-insensitively canonical, so the fast path fires) `int2str(255)`
returns the uppercased `'FF'` while the manual divide-and-prepend loop
yields `'ff'`; and on the default codec the native parser accepts `' 1'`
(leading whitespace) while the manual fold raises. -/
theorem native_fastpath_not_equiv_manual_cex :
    nc_lower_hex.int2str 255 = .ok (pyStr "FF") ∧
    int2str_digits nc_lower_hex.alphabet nc_lower_hex.radix 255 = pyStr "ff" ∧
    nc_default.str2int (pyStr " 1") = .ok 1 ∧
    str2int_manual nc_default (pyStr " 1") =
      .error (.valueErrorRadix2Int 10 (pyStr " 1")) := by decide

/-- C4 (amended): the fast paths agree with the manual loops exactly when
the alphabet's first `radix` symbols are byte-for-byte the canonical
prefix, and — for decoding — the input is a non-empty string over those
first `radix` symbols (outside those conditions they can differ in case of
output and in acceptance of whitespace / signs / prefixes / empty input /
other-case digits, as the counterexample shows). -/
theorem native_fastpath_equiv_manual_on_canonical_alphabet :
    (∀ (nc : NumConv) (num : ℕ), nc.radix ∈ [8, 10, 16] →
        nc.alphabet.take nc.radix = BASE85.take nc.radix →
        nc.int2str (num : ℤ) = .ok (int2str_digits nc.alphabet nc.radix num)) ∧
    (∀ (nc : NumConv) (s : List ℕ), nc.radix ≤ 36 →
        nc.alphabet.take nc.radix = BASE85.take nc.radix →
        s ≠ [] → (∀ c ∈ s, c ∈ nc.alphabet.take nc.radix) →
        nc.str2int s = str2int_manual nc s) := by
  constructor
  · intro nc num hmem hexact
    have hr2 := nc.two_le_radix
    have hlm : lowerMatch nc.radix nc.alphabet :=
      congrArg (List.map pyLower) hexact
    have h16 : nc.radix ≤ 16 := by
      have := hmem
      simp only [List.mem_cons, List.not_mem_nil, or_false] at this
      omega
    have hneg : ¬ ((num : ℤ) < 0) := not_lt.mpr (Int.natCast_nonneg num)
    rw [NumConv.int2str, if_neg hneg, if_pos ⟨hmem, hlm⟩, Int.toNat_natCast,
      int2str_fast_eq_digits_BASE85 hr2 h16 num]
    congr 1
    refine int2str_digits_congr hr2 (fun d hd => ?_) num
    rw [← getD_take_eq (A := BASE85) hd, ← getD_take_eq (A := nc.alphabet) hd, hexact]
  · intro nc s h36 hexact hne hall
    have hr2 := nc.two_le_radix
    have hlm : lowerMatch nc.radix nc.alphabet :=
      congrArg (List.map pyLower) hexact
    have hgetD : ∀ d, d < nc.radix → pyDigitVal (nc.alphabet.getD d 0) = some d := by
      intro d hd
      have : nc.alphabet.getD d 0 = BASE85.getD d 0 := by
        rw [← getD_take_eq (A := nc.alphabet) hd, ← getD_take_eq (A := BASE85) hd, hexact]
      rw [this]
      exact pyDigitVal_BASE85 d (by omega)
    have hdig : ∀ c ∈ s, pyIntIsDigit nc.radix c = true := by
      intro c hc
      obtain ⟨d, hd, hdl, rfl⟩ := mem_take_exists_getD (hall c hc)
      unfold pyIntIsDigit
      rw [hgetD d hd]
      simpa using hd
    rw [NumConv.str2int, if_pos ⟨h36, hlm⟩, pyIntParse_clean hne hdig,
      str2int_manual, s2i_aux_ok nc s s 0 hall]
    congr 1
    refine congrArg _ (foldl_dv_congr s (fun c hc => ?_) 0)
    obtain ⟨d, hd, hdl, rfl⟩ := mem_take_exists_getD (hall c hc)
    rw [hgetD d hd, cachedMap_getD nc.nodup hdl]

theorem native_fastpath_equiv_manual_on_canonical_alphabet_witness :
    nc_canon_hex.int2str 255 =
      .ok (int2str_digits nc_canon_hex.alphabet nc_canon_hex.radix 255) ∧
    nc_canon_hex.str2int (pyStr "FF") = str2int_manual nc_canon_hex (pyStr "FF") :=
  ⟨native_fastpath_equiv_manual_on_canonical_alphabet.1 nc_canon_hex 255 (by decide) (by decide),
   native_fastpath_equiv_manual_on_canonical_alphabet.2 nc_canon_hex (pyStr "FF")
     (by decide) (by decide) (by decide) (by decide)⟩

/-- C5 (counterexample): on the default codec (native fast path) `str2int`
does NOT raise on every string containing a byte outside the first `radix`
alphabet symbols: `' 1'` contains a space (byte 32), which is not an
alphabet symbol, yet parses to `1`. -/
theorem str2int_error_iff_cex :
    nc_default.str2int (pyStr " 1") = .ok 1 ∧
    32 ∈ pyStr " 1" ∧ 32 ∉ nc_default.alphabet.take nc_default.radix := by decide

/-- C5 (amended): on the manual path (codecs failing the native fast-path
guard) `str2int(s)` raises a ValueError iff some byte of `s` is not among
the first `radix` alphabet symbols, and the error carries the radix and
the offending string; on the native fast path the built-in `int()` rules
apply instead. -/
theorem str2int_error_iff_manual_path (nc : NumConv) (s : List ℕ)
    (hman : ¬ (nc.radix ≤ 36 ∧ lowerMatch nc.radix nc.alphabet)) :
    ((∃ e, nc.str2int s = .error e) ↔ ∃ c ∈ s, c ∉ nc.alphabet.take nc.radix) ∧
    ∀ e, nc.str2int s = .error e → e = .valueErrorRadix2Int nc.radix s := by
  simp only [NumConv.str2int, if_neg hman]
  exact str2int_manual_error_iff nc s

theorem str2int_error_iff_manual_path_witness :
    ¬ (nc_rofl.radix ≤ 36 ∧ lowerMatch nc_rofl.radix nc_rofl.alphabet) ∧
    (∃ e, nc_rofl.str2int (pyStr "fox") = .error e) ∧
    ∀ e, nc_rofl.str2int (pyStr "fox") = .error e →
      e = .valueErrorRadix2Int nc_rofl.radix (pyStr "fox") :=
  ⟨by decide,
   ((str2int_error_iff_manual_path nc_rofl (pyStr "fox") (by decide)).1).mpr
     ⟨120, by decide, by decide⟩,
   (str2int_error_iff_manual_path nc_rofl (pyStr "fox") (by decide)).2⟩

/-- C8: on the manual path (fast-path guard false) `str2int` of the empty
string returns `0` without raising. -/
theorem str2int_empty_manual_path_ok_zero (nc : NumConv)
    (hman : ¬ (nc.radix ≤ 36 ∧ lowerMatch nc.radix nc.alphabet)) :
    nc.str2int [] = .ok 0 := by
  rw [NumConv.str2int, if_neg hman]
  rfl

theorem str2int_empty_manual_path_ok_zero_witness :
    ¬ (nc_rofl.radix ≤ 36 ∧ lowerMatch nc_rofl.radix nc_rofl.alphabet) ∧
    nc_rofl.str2int [] = .ok 0 :=
  ⟨by decide, str2int_empty_manual_path_ok_zero nc_rofl (by decide)⟩

/-- C9: `NumConv` construction validates symbol uniqueness over the ENTIRE
alphabet: for any valid radix, a duplicate anywhere in the alphabet (even
beyond the first `radix` symbols) raises the duplicate-characters
ValueError. -/
theorem numconv_init_validates_whole_alphabet (radix : ℕ) (alphabet : List ℕ)
    (i j : ℕ) (hij : i < j) (hj : j < alphabet.length)
    (hdup : alphabet.getD i 0 = alphabet.getD j 0)
    (h2 : 2 ≤ radix) (hle : radix ≤ alphabet.length) :
    NumConv.mk? radix alphabet = .error (.valueErrorDuplicate alphabet) := by
  have hi : i < alphabet.length := by omega
  have hnd : ¬ alphabet.Nodup := by
    intro hnd
    rw [List.getD_eq_getElem _ _ hi, List.getD_eq_getElem _ _ hj] at hdup
    have : i = j := (hnd.getElem_inj_iff).mp hdup
    omega
  have hdedup : ¬ (alphabet.dedup.length = alphabet.length) :=
    fun h => hnd (nodup_of_dedup_length h)
  rw [NumConv.mk?, dif_pos ⟨h2, hle⟩, dif_neg hdedup]

theorem numconv_init_validates_whole_alphabet_witness :
    NumConv.mk? 2 (pyStr "abca") = .error (.valueErrorDuplicate (pyStr "abca")) :=
  numconv_init_validates_whole_alphabet 2 (pyStr "abca") 0 3
    (by decide) (by decide) (by decide) (by decide) (by decide)

/-- C1 (counterexample): with `min_value = 0 < max_value = 10` the values
of the inclusive range `[0, 10]` are NOT selected by equally many accepted
4-bit entropy words: `0` is produced by one accepted word while `10` is
produced by none (the code never returns `max_value`). -/
theorem random_in_range_not_inclusive_uniform_cex :
    rir_step 10 0 0 = .ok (some 0) ∧
    ((Finset.range (2 ^ numbits 10)).filter
        (fun b : ℕ => rir_step 10 0 (b : ℤ) = .ok (some 0))).card = 1 ∧
    ((Finset.range (2 ^ numbits 10)).filter
        (fun b : ℕ => rir_step 10 0 (b : ℤ) = .ok (some 10))).card = 0 := by
  decide

/-- C1 (amended): for `min_value < max_value` (with `max_value` truthy)
every accepted entropy word yields a value in the HALF-OPEN range
`[min_value, max_value)` — `max_value` itself is never returned — and
every integer of that half-open range is produced by exactly
`bucket = rand_max // value_range` of the `2 ^ bit_length` entropy words
(equal selection probability over `[min_value, max_value - 1]`). -/
theorem random_in_range_accepted_halfopen_uniform (max min : ℤ)
    (hmax : max ≠ 0) (hlt : min < max) :
    (∀ b v : ℤ, 0 ≤ b → rir_step max min b = .ok (some v) →
        min ≤ v ∧ v < max) ∧
    (∀ v : ℤ, min ≤ v → v < max →
        ((Finset.range (2 ^ numbits max)).filter
            (fun b : ℕ => rir_step max min (b : ℤ) = .ok (some v))).card
          = (Int.fdiv (2 ^ numbits max - 1) (max - min)).toNat) := by
  refine ⟨?_, fun v hv1 hv2 => rir_step_count max min v hmax hlt hv1 hv2⟩
  intro b v hb0 hstep
  have h := (rir_step_ok_iff max min b v hmax hlt hb0).mp hstep
  exact ⟨h.2.2.1, h.2.2.2⟩

theorem random_in_range_accepted_halfopen_uniform_witness :
    (10 : ℤ) ≠ 0 ∧ (0 : ℤ) < 10 ∧
    ((Finset.range (2 ^ numbits 10)).filter
        (fun b : ℕ => rir_step 10 0 (b : ℤ) = .ok (some 3))).card
      = (Int.fdiv (2 ^ numbits 10 - 1) (10 - 0)).toNat :=
  ⟨by decide, by decide,
   (random_in_range_accepted_halfopen_uniform 10 0 (by decide) (by decide)).2 3
     (by decide) (by decide)⟩

/-- C7 (counterexample): for `max_value = 5`, `min_value = 10` the range
`max_value - min_value = -5` is non-positive (and `max_value` truthy), yet
the code does NOT fail with a configuration error — the first entropy word
`0` is accepted and the call returns `10`. -/
theorem random_in_range_negative_range_no_error_cex :
    (5 : ℤ) - 10 ≤ 0 ∧ rir_step 5 10 0 = .ok (some 10) := by decide

/-- C7 (amended): with `max_value` truthy and `max_value = min_value`
(`value_range = 0`) the call never returns a value: each draw equal to
`rand_max` retries, and any other draw raises `ZeroDivisionError` at
`rand_max % value_range`; in particular `min_value = max_value = 5` fails
with that error rather than returning 5.  With `value_range < 0` the code
returns a value without raising (see the counterexample). -/
theorem random_in_range_degenerate_range_behaviour :
    (∀ m b : ℤ, m ≠ 0 →
        rir_step m m b =
          if b = 2 ^ numbits m - 1 then .ok none else .error .zeroDivisionError) ∧
    (∀ (draws : List ℤ) (v : ℤ),
        random_in_range_draws 5 5 draws ≠ .ok (some v)) :=
  ⟨fun m b hm => rir_step_degenerate m b hm,
   fun draws v => random_in_range_draws_degenerate 5 (by decide) draws v⟩

theorem random_in_range_degenerate_range_behaviour_witness :
    (5 : ℤ) ≠ 0 ∧ rir_step 5 5 0 = .error .zeroDivisionError :=
  ⟨by decide, by
    rw [random_in_range_degenerate_range_behaviour.1 5 0 (by decide)]
    decide⟩

/-- C3: the collision-checked allocators only return candidates accepted
by the supplied predicate; in particular, with the predicate
`lambda c: c not in used_set`, the returned value is never in `used_set`. -/
theorem get_unique_id_respects_predicate :
    (∀ (iu : PyCallable ℤ) (uuid4int : ℕ) (entropy : List ℕ) (r : ℤ),
        iu.isCallable = true →
        get_unique_id iu uuid4int entropy = some r → iu.call r = true) ∧
    (∀ (iu : PyCallable (List ℕ)) (alphabet : List ℕ) (uuid4int : ℕ)
        (entropy : List ℕ) (s : List ℕ),
        iu.isCallable = true →
        get_unique_id_str iu alphabet uuid4int entropy = .ok (some s) →
        iu.call s = true) ∧
    (∀ (used : List ℤ) (uuid4int : ℕ) (entropy : List ℕ) (r : ℤ),
        get_unique_id ⟨true, true, fun c => decide (c ∉ used)⟩ uuid4int entropy
          = some r → r ∉ used) := by
  have hint : ∀ (iu : PyCallable ℤ) (uuid4int : ℕ) (entropy : List ℕ) (r : ℤ),
      iu.isCallable = true →
      get_unique_id iu uuid4int entropy = some r → iu.call r = true := by
    intro iu uuid4int entropy r hcall h
    rw [get_unique_id.eq_def, if_neg (by rw [hcall]; simp)] at h
    cases entropy with
    | nil => exact absurd h (by simp)
    | cons n rest => exact uid_loop_some rest (n : ℤ) r h
  refine ⟨hint, ?_, ?_⟩
  · intro iu alphabet uuid4int entropy s hcall h
    rw [get_unique_id_str.eq_def, if_neg (by rw [hcall]; simp)] at h
    cases entropy with
    | nil => exact absurd h (by simp)
    | cons n rest =>
      have h2 : (match get_random_id_str n [] with
          | Except.error e => Except.error e
          | Except.ok id =>
            uid_str_loop iu (if alphabet = [] then BASE62 else alphabet) id rest)
          = Except.ok (some s) := h
      cases hgr : get_random_id_str n [] with
      | error e => rw [hgr] at h2; exact absurd h2 (by simp)
      | ok id => rw [hgr] at h2; exact uid_str_loop_some rest id s h2
  · intro used uuid4int entropy r h
    have := hint ⟨true, true, fun c => decide (c ∉ used)⟩ uuid4int entropy r rfl h
    exact of_decide_eq_true this

theorem get_unique_id_respects_predicate_witness :
    get_unique_id ⟨true, true, fun c => decide (c = 3)⟩ 0 [5, 3, 7] = some 3 ∧
    decide ((3 : ℤ) = 3) = true ∧
    (3 : ℤ) ∉ [(5 : ℤ), 9] :=
  ⟨by decide,
   get_unique_id_respects_predicate.1 ⟨true, true, fun c => decide (c = 3)⟩ 0
     [5, 3, 7] 3 rfl (by decide),
   get_unique_id_respects_predicate.2.2 [(5 : ℤ), 9] 0 [3]  3 (by decide)⟩

/-- C6 (code bug): `get_unique_id_str` draws its FIRST candidate with
`get_random_id_str()` — without passing the supplied alphabet (line 322 of
the source) — so with `alphabet = BASE16` and an always-true predicate the
returned string for the 7-byte entropy draw `36` is `'a'`, the `BASE62`
encoding, which is not a `BASE16` string at all; encoding `36` with the
supplied alphabet (as the docstring promises) gives `'24'`. -/
theorem get_unique_id_str_ignores_alphabet_on_first_draw :
    get_unique_id_str ⟨true, true, fun _ => true⟩ BASE16 0 [36]
      = .ok (some (pyStr "a")) ∧
    int2str_top 36 BASE16.length BASE16 = .ok (pyStr "24") ∧
    97 ∈ pyStr "a" ∧ 97 ∉ BASE16 := by decide

/-- C10: a non-callable `is_unique` argument (whatever its truthiness, and
whatever predicate one might have intended) silently sends both allocators
down the 128-bit UUID path: the argument is never invoked, no uniqueness
check happens, no entropy is consumed and no error about an invalid
predicate is raised. -/
theorem get_unique_id_noncallable_uuid_path (t : Bool) (f : ℤ → Bool)
    (g : List ℕ → Bool) (uuid4int : ℕ) (entropy : List ℕ) (alphabet : List ℕ) :
    get_unique_id ⟨false, t, f⟩ uuid4int entropy = some (uuid4int : ℤ) ∧
    get_unique_id_str ⟨false, t, g⟩ alphabet uuid4int entropy =
      (int2str_top (uuid4int : ℤ)
        (if alphabet = [] then BASE62 else alphabet).length
        (if alphabet = [] then BASE62 else alphabet)).map some :=
  ⟨rfl, rfl⟩
